import Mathlib

/-!
# Initials avatars: initials extraction and gradient interpolation

A verification development for the `avatar` package:

* `getInitials` and `isSymbol` of `avatar_initials.go`;
* `GradientTable.getInterpolatedColorFor` of `avatar_gradient.go`.

Conventions of the embedding.

* A rune is its code point, a `Nat`. A text is a valid UTF-8 string, given by
  the list of its runes (`[]rune(text)`); its bytes (`text[i]`) are computed by
  `utf8Bytes`.
* The classification functions of Go's `unicode` package are not part of the
  package. `getInitials` takes them as a parameter (`UnicodeTables`), so the
  general theorems hold for every classification; `goUnicode` is an excerpt of
  Go's tables used to evaluate the code on concrete texts.
* An indexing expression of the source that would panic makes the embedding
  return `none`.
* A `float64` is a finite number (the rational it denotes), a NaN or an
  infinity (`F64`). Positions and `t` are finite. Subtraction and division
  overflow to an infinity and give NaN on `0/0` and `Inf/Inf`; rounding of a
  finite result is not modelled.
* The `go-colorful` operations `BlendHcl` and `Clamped` are not part of the
  package. The interpolation takes them as a parameter (`ColorLib`) and every
  statement about it is made for every library.
-/

namespace Avatar

/-! ## Runes, bytes and Unicode classes -/

/-- The rune list of a string literal, used to write concrete texts. -/
def runes (s : String) : List Nat := s.toList.map Char.toNat

/-- UTF-8 encoding of one rune (the bytes Go stores for it in a string). -/
def encodeRune (r : Nat) : List Nat :=
  if r < 0x80 then [r]
  else if r < 0x800 then [0xC0 + r / 64, 0x80 + r % 64]
  else if r < 0x10000 then [0xE0 + r / 4096, 0x80 + r / 64 % 64, 0x80 + r % 64]
  else [0xF0 + r / 262144, 0x80 + r / 4096 % 64, 0x80 + r / 64 % 64, 0x80 + r % 64]

/-- The bytes of a text: what `text[i]` indexes and `len(text)` counts. -/
def utf8Bytes : List Nat → List Nat
  | [] => []
  | r :: rs => encodeRune r ++ utf8Bytes rs

/-- Membership of a code point in a list of inclusive ranges. -/
def inRanges (rs : List (Nat × Nat)) (r : Nat) : Bool :=
  rs.any fun p => decide (p.1 ≤ r) && decide (r ≤ p.2)

/-- The five predicates of Go's `unicode` package that `getInitials` uses. -/
structure UnicodeTables where
  IsUpper : Nat → Bool
  IsLower : Nat → Bool
  IsSymbol : Nat → Bool
  IsSpace : Nat → Bool
  IsPunct : Nat → Bool

/-- Facts about the Unicode classes that every version of the tables satisfies:
upper-case letters, lower-case letters and the skip classes are pairwise
disjoint, the space is white space and `@` is punctuation. -/
structure UnicodeTables.Sane (U : UnicodeTables) : Prop where
  upper_not_lower : ∀ r, U.IsUpper r = true → U.IsLower r = false
  upper_not_skip : ∀ r, U.IsUpper r = true →
    U.IsSymbol r = false ∧ U.IsSpace r = false ∧ U.IsPunct r = false
  lower_not_skip : ∀ r, U.IsLower r = true →
    U.IsSymbol r = false ∧ U.IsSpace r = false ∧ U.IsPunct r = false
  space_isSpace : U.IsSpace 0x20 = true
  at_isPunct : U.IsPunct 0x40 = true

/-- Go's `unicode` tables on U+0000..U+00FF (Latin-1) and U+0400..U+045F (basic
Cyrillic): categories Lu, Ll, S*, P*, and `unicode.IsSpace`. Code points
outside these two blocks are in none of the classes of this excerpt. -/
def goUnicode : UnicodeTables where
  IsUpper := inRanges [(0x41, 0x5A), (0xC0, 0xD6), (0xD8, 0xDE), (0x400, 0x42F)]
  IsLower := inRanges [(0x61, 0x7A), (0xB5, 0xB5), (0xDF, 0xF6), (0xF8, 0xFF), (0x430, 0x45F)]
  IsSymbol := inRanges [(0x24, 0x24), (0x2B, 0x2B), (0x3C, 0x3E), (0x5E, 0x5E), (0x60, 0x60),
    (0x7C, 0x7C), (0x7E, 0x7E), (0xA2, 0xA6), (0xA8, 0xA9), (0xAC, 0xAC), (0xAE, 0xB1),
    (0xB4, 0xB4), (0xB8, 0xB8), (0xD7, 0xD7), (0xF7, 0xF7)]
  IsSpace := inRanges [(0x09, 0x0D), (0x20, 0x20), (0x85, 0x85), (0xA0, 0xA0)]
  IsPunct := inRanges [(0x21, 0x23), (0x25, 0x2A), (0x2C, 0x2F), (0x3A, 0x3B), (0x3F, 0x40),
    (0x5B, 0x5D), (0x5F, 0x5F), (0x7B, 0x7B), (0x7D, 0x7D), (0xA1, 0xA1), (0xA7, 0xA7),
    (0xAB, 0xAB), (0xB6, 0xB7), (0xBB, 0xBB), (0xBF, 0xBF)]

/-- Source: `isSymbol` (avatar_initials.go): the skip characters. -/
def isSymbol (U : UnicodeTables) (ch : Nat) : Bool :=
  U.IsSymbol ch || U.IsSpace ch || U.IsPunct ch

/-! ## The email regular expression -/

/-- Regular expressions over runes, as far as `regEmail` needs them. -/
inductive Regex where
  | fail : Regex
  | empty : Regex
  | cls (rs : List (Nat × Nat)) : Regex
  | cat (a b : Regex) : Regex
  | alt (a b : Regex) : Regex
  | star (a : Regex) : Regex

namespace Regex

/-- Whether the expression matches the empty text. -/
def nullable : Regex → Bool
  | fail => false
  | empty => true
  | cls _ => false
  | cat a b => a.nullable && b.nullable
  | alt a b => a.nullable || b.nullable
  | star _ => true

/-- Concatenation that drops a failed or empty left factor. -/
def mkCat : Regex → Regex → Regex
  | fail, _ => fail
  | empty, b => b
  | a, b => cat a b

/-- Alternation that drops a failed branch. -/
def mkAlt : Regex → Regex → Regex
  | fail, b => b
  | a, fail => a
  | a, b => alt a b

/-- Brzozowski derivative: what remains to be matched after reading `c`. -/
def deriv (c : Nat) : Regex → Regex
  | fail => fail
  | empty => fail
  | cls rs => if inRanges rs c then empty else fail
  | cat a b =>
    if a.nullable then mkAlt (mkCat (a.deriv c) b) (b.deriv c) else mkCat (a.deriv c) b
  | alt a b => mkAlt (a.deriv c) (b.deriv c)
  | star a => mkCat (a.deriv c) (star a)

/-- Whether the whole text matches the expression. `regEmail` is anchored by
`^` and `$`, so `regEmail.MatchString(text)` is a match of the whole text. -/
def MatchString : Regex → List Nat → Bool
  | r, [] => r.nullable
  | r, c :: cs => MatchString (r.deriv c) cs

/-- One rune. -/
def chr (c : Nat) : Regex := cls [(c, c)]

/-- Postfix `+`. -/
def plus (a : Regex) : Regex := cat a (star a)

/-- Postfix `?`. -/
def opt (a : Regex) : Regex := alt a empty

/-- The texts an expression denotes. -/
inductive Matches : Regex → List Nat → Prop
  | empty : Matches empty []
  | cls {rs : List (Nat × Nat)} {c : Nat} : inRanges rs c = true → Matches (cls rs) [c]
  | cat {a b : Regex} {s t : List Nat} : Matches a s → Matches b t → Matches (cat a b) (s ++ t)
  | altLeft {a b : Regex} {s : List Nat} : Matches a s → Matches (alt a b) s
  | altRight {a b : Regex} {s : List Nat} : Matches b s → Matches (alt a b) s
  | starNil {a : Regex} : Matches (star a) []
  | starCons {a : Regex} {s t : List Nat} :
    Matches a s → Matches (star a) t → Matches (star a) (s ++ t)

end Regex

open Regex

/-- The class `[\x{00A0}-\x{D7FF}\x{F900}-\x{FDCF}\x{FDF0}-\x{FFEF}]`. -/
def reUni : Regex := cls [(0xA0, 0xD7FF), (0xF900, 0xFDCF), (0xFDF0, 0xFFEF)]

/-- The class `[a-zA-Z]`. -/
def reAlpha : Regex := cls [(0x61, 0x7A), (0x41, 0x5A)]

/-- The class `\d`, which is `[0-9]` in Go. -/
def reDigit : Regex := cls [(0x30, 0x39)]

/-- The class of the specials of an atom, in the order of the source: `!`,
`#`, `$`, `%`, `&`, the apostrophe, `*`, `+`, `-`, `/`, `=`, `?`, `^`, `_`, the
backquote, `{`, `|`, `}`, `~`. -/
def reSpecial : Regex :=
  cls [(0x21, 0x21), (0x23, 0x23), (0x24, 0x24), (0x25, 0x25), (0x26, 0x26), (0x27, 0x27),
    (0x2A, 0x2A), (0x2B, 0x2B), (0x2D, 0x2D), (0x2F, 0x2F), (0x3D, 0x3D), (0x3F, 0x3F),
    (0x5E, 0x5E), (0x5F, 0x5F), (0x60, 0x60), (0x7B, 0x7B), (0x7C, 0x7C), (0x7D, 0x7D),
    (0x7E, 0x7E)]

/-- The group `([a-zA-Z]|\d|[!#...~]|[uni])`. -/
def reAtext : Regex := alt reAlpha (alt reDigit (alt reSpecial reUni))

/-- The dot-atom `atext+(\.atext+)*` of the local part. -/
def reDotAtom : Regex := cat (plus reAtext) (star (cat (chr 0x2E) (plus reAtext)))

/-- The group `(((\x20|\x09)*(\x0d\x0a))?(\x20|\x09)+)?`: folding white space. -/
def reFws : Regex :=
  opt (cat (opt (cat (star (alt (chr 0x20) (chr 0x09))) (cat (chr 0x0D) (chr 0x0A))))
    (plus (alt (chr 0x20) (chr 0x09))))

/-- The group `([\x01-\x08\x0b\x0c\x0e-\x1f\x7f]|\x21|[\x23-\x5b]|[\x5d-\x7e]|[uni])`. -/
def reQtext : Regex :=
  alt (cls [(0x01, 0x08), (0x0B, 0x0B), (0x0C, 0x0C), (0x0E, 0x1F), (0x7F, 0x7F)])
    (alt (chr 0x21) (alt (cls [(0x23, 0x5B)]) (alt (cls [(0x5D, 0x7E)]) reUni)))

/-- The group `(\([\x01-\x09\x0b\x0c\x0d-\x7f]|[uni])`: in the source the
parenthesis is escaped, so it is a literal `(` followed by one rune of the
class, or one rune of the Unicode class. -/
def reQpair : Regex :=
  alt (cat (chr 0x28) (cls [(0x01, 0x09), (0x0B, 0x0B), (0x0C, 0x0C), (0x0D, 0x7F)])) reUni

/-- The second branch of the local part:
`((\x22)(fws(qtext|qpair)))*fws(\x22)`. -/
def reQuoted : Regex :=
  cat (star (cat (chr 0x22) (cat reFws (alt reQtext reQpair)))) (cat reFws (chr 0x22))

/-- The group `([a-zA-Z]|\d|[uni])`. -/
def reAlnum : Regex := alt reAlpha (alt reDigit reUni)

/-- The group `([a-zA-Z]|\d|-|\.|_|~|[uni])`. -/
def reLabelChar : Regex :=
  alt reAlpha (alt reDigit (alt (chr 0x2D) (alt (chr 0x2E) (alt (chr 0x5F) (alt (chr 0x7E) reUni)))))

/-- A domain label: `(alnum|(alnum labelchar* alnum))`. -/
def reLabel : Regex := alt reAlnum (cat reAlnum (cat (star reLabelChar) reAlnum))

/-- The group `([a-zA-Z]|[uni])`. -/
def reLetter : Regex := alt reAlpha reUni

/-- The top-level domain: `(letter|(letter labelchar* letter))`. -/
def reTld : Regex := alt reLetter (cat reLetter (cat (star reLabelChar) reLetter))

/-- Source: `regEmail` in `getInitials`:
`^((dotatom)|(quoted))@((label)\.)+(tld)\.?$`. -/
def regEmail : Regex :=
  cat (alt reDotAtom reQuoted)
    (cat (chr 0x40) (cat (plus (cat reLabel (chr 0x2E))) (cat reTld (opt (chr 0x2E)))))

/-! ## getInitials -/

/-- Source: the first loop of `getInitials`, over `[]rune(text)`, with the
state `(initials, previous)`. It stops at `@` when the text is an email
address; a skip character only becomes `previous`; a selected character is
appended and becomes `previous`; any other character changes nothing. -/
def scanLoop (U : UnicodeTables) (skipFromAt : Bool) :
    List Nat → List Nat → Nat → List Nat
  | [], initials, _ => initials
  | ch :: rest, initials, previous =>
    if skipFromAt == true && ch == 0x40 then initials
    else if isSymbol U ch then scanLoop U skipFromAt rest initials ch
    else if ((U.IsUpper ch && U.IsLower previous) ||
        (U.IsLower ch && initials.length == 0)) || isSymbol U previous then
      scanLoop U skipFromAt rest (initials ++ [ch]) ch
    else scanLoop U skipFromAt rest initials previous

/-- Source: the second loop of `getInitials`,
`for i := len(initials); i < nChars && len([]rune(text)) > i; i++`.
The test `isSymbol(rune(text[i]))` reads byte `i` of the text, the appended
character is rune `i`. An index out of range gives `none`; so does running
out of `fuel` while the loop condition still holds. -/
def padLoop (U : UnicodeTables) (text : List Nat) (nChars : Int) :
    Nat → Nat → List Nat → Option (List Nat)
  | 0, i, initials =>
    if decide ((i : Int) < nChars) && decide (text.length > i) then none else some initials
  | fuel + 1, i, initials =>
    if decide ((i : Int) < nChars) && decide (text.length > i) then
      match (utf8Bytes text)[i]? with
      | none => none
      | some b =>
        if isSymbol U b then padLoop U text nChars fuel (i + 1) initials
        else
          match text[i]? with
          | none => none
          | some r => padLoop U text nChars fuel (i + 1) (initials ++ [r])
    else some initials

/-- The characters selected by the boundary rules: the value of `initials`
after the first loop of `getInitials`. -/
def boundaryInitials (U : UnicodeTables) (text : List Nat) : List Nat :=
  scanLoop U (regEmail.MatchString text) text [] 0x20

/-- Source: `getInitials` (avatar_initials.go). The result is the rune list of
the returned string; `none` is a run-time panic. The second loop runs at most
`len([]rune(text))` times, which is the fuel given to `padLoop`. -/
def getInitials (U : UnicodeTables) (text : List Nat) (nChars : Int) : Option (List Nat) :=
  if (utf8Bytes text).length == 0 then some []
  else
    let initials := boundaryInitials U text
    padLoop U text nChars text.length initials.length initials

/-! ## Gradient interpolation -/

/-- A `float64` value: a finite number, given by the rational it denotes, a
NaN, or an infinity. The sign of a zero is not kept. -/
inductive F64 where
  | num (q : ℚ) : F64
  | nan : F64
  | inf (negative : Bool) : F64
deriving DecidableEq

/-- The magnitude from which a `float64` result overflows to an infinity:
`2^1024 - 2^970`, half an ulp above the largest finite `float64`. -/
def overflowBound : ℚ := 2 ^ 1024 - 2 ^ 970

/-- The `float64` result of an operation whose exact value is `q`: an infinity
on overflow. Rounding of a finite result to 53 bits is not modelled. -/
def F64.ofRat (q : ℚ) : F64 :=
  if |q| < overflowBound then F64.num q else F64.inf (decide (q < 0))

/-- The `float64` subtraction `a - b` of two finite values. -/
def fsub (a b : ℚ) : F64 := F64.ofRat (a - b)

/-- The `float64` division `a / b`: `0/0` and `Inf/Inf` are NaN, `x/0` is an
infinity, `x/Inf` is zero, and a NaN operand gives NaN. -/
def fdiv : F64 → F64 → F64
  | F64.num a, F64.num b =>
    if b = 0 then (if a = 0 then F64.nan else F64.inf (decide (a < 0)))
    else F64.ofRat (a / b)
  | F64.num _, F64.inf _ => F64.num 0
  | F64.inf n, F64.num b => F64.inf (n != decide (b < 0))
  | F64.inf _, F64.inf _ => F64.nan
  | F64.nan, _ => F64.nan
  | F64.num _, F64.nan => F64.nan
  | F64.inf _, F64.nan => F64.nan

/-- A channel value within `[0, 1]`; a NaN or an infinity is not. -/
def F64.InUnit : F64 → Prop
  | F64.num q => 0 ≤ q ∧ q ≤ 1
  | F64.nan => False
  | F64.inf _ => False

/-- Source: `Color` (avatar_gradient.go), which wraps `colorful.Color`: three
`float64` channels. -/
structure Color where
  R : F64
  G : F64
  B : F64
deriving DecidableEq

/-- The colour with the finite channels `r`, `g`, `b`. -/
def rgb (r g b : ℚ) : Color := ⟨F64.num r, F64.num g, F64.num b⟩

/-- The representable gamut: every channel is a number of `[0, 1]`. -/
def Color.InGamut (c : Color) : Prop := c.R.InUnit ∧ c.G.InUnit ∧ c.B.InUnit

/-- No channel of the colour is NaN. -/
def Color.NoNaN (c : Color) : Prop := c.R ≠ F64.nan ∧ c.G ≠ F64.nan ∧ c.B ≠ F64.nan

/-- Source: one entry of `GradientTable`, `struct { Col Color; Pos float64 }`.
The position is a finite `float64`. -/
structure Stop where
  Col : Color
  Pos : ℚ
deriving DecidableEq

/-- Source: `GradientTable` (avatar_gradient.go). -/
abbrev GradientTable := List Stop

/-- The two operations of the `go-colorful` library that the interpolation
calls: `c1.BlendHcl(c2, t)` and `c.Clamped()`. The library is not part of the
package: the operations are parameters, and every statement about the
interpolation is made for every library. -/
structure ColorLib where
  BlendHcl : Color → Color → F64 → Color
  Clamped : Color → Color

/-- Source: the loop of `getInterpolatedColorFor`,
`for i := 0; i < len(gt)-1; i++`, with `k` iterations left at index `i`, and
the `return gt[len(gt)-1].Col` after it. -/
def interpolateFrom (L : ColorLib) (gt : GradientTable) (t : ℚ) : Nat → Nat → Option Color
  | 0, _ => (gt[gt.length - 1]?).map Stop.Col
  | k + 1, i =>
    match gt[i]?, gt[i + 1]? with
    | some c1, some c2 =>
      if c1.Pos ≤ t ∧ t ≤ c2.Pos then
        some (L.Clamped
          (L.BlendHcl c1.Col c2.Col (fdiv (fsub t c1.Pos) (fsub c2.Pos c1.Pos))))
      else interpolateFrom L gt t k (i + 1)
    | _, _ => none

/-- Source: `GradientTable.getInterpolatedColorFor` (avatar_gradient.go). The
loop body runs for `i = 0, ..., len(gt)-2`; on an empty table the final
`gt[len(gt)-1]` is out of range, which is `none`. -/
def getInterpolatedColorFor (L : ColorLib) (gt : GradientTable) (t : ℚ) : Option Color :=
  if gt.length = 0 then none else interpolateFrom L gt t (gt.length - 1) 0

/-- Clamping of one channel to `[0, 1]`; a NaN stays a NaN. -/
def clamp01 : F64 → F64
  | F64.num v => F64.num (max 0 (min v 1))
  | F64.nan => F64.nan
  | F64.inf true => F64.num 0
  | F64.inf false => F64.num 1

/-- Linear mix of two channels; NaN unless both are finite. -/
def mixChannel (q : ℚ) : F64 → F64 → F64
  | F64.num a, F64.num b => F64.num (a + q * (b - a))
  | _, _ => F64.nan

/-- An instance of `ColorLib`, used only to show that the hypotheses made on a
library can be met. It is not a model of `go-colorful`, whose blend goes
through the HCL space: this one mixes the channels linearly, gives a NaN colour
unless the fraction is finite, and clamps channel by channel. -/
def sampleLib : ColorLib where
  BlendHcl := fun c1 c2 u =>
    match u with
    | F64.num q => ⟨mixChannel q c1.R c2.R, mixChannel q c1.G c2.G, mixChannel q c1.B c2.B⟩
    | _ => ⟨F64.nan, F64.nan, F64.nan⟩
  Clamped := fun c => ⟨clamp01 c.R, clamp01 c.G, clamp01 c.B⟩

/-- The positions of a table are non-decreasing. -/
def Sorted (gt : GradientTable) : Prop :=
  gt.Pairwise fun a b => a.Pos ≤ b.Pos

/-- The positions of a table are strictly increasing. -/
def StrictlySorted (gt : GradientTable) : Prop :=
  gt.Pairwise fun a b => a.Pos < b.Pos

/-- The positions of a table lie in `[0, 1]`, as the source's comment on
`GradientTable` requires. -/
def UnitPositions (gt : GradientTable) : Prop :=
  ∀ s ∈ gt, 0 ≤ s.Pos ∧ s.Pos ≤ 1

/-! ## Texts made of capitalised words -/

/-- Words joined by single spaces. -/
def joinWords : List (List Nat) → List Nat
  | [] => []
  | [w] => w
  | w :: w2 :: ws => w ++ 0x20 :: joinWords (w2 :: ws)

/-- One upper-case letter followed by zero or more lower-case letters. -/
def IsCapitalised (U : UnicodeTables) (w : List Nat) : Prop :=
  ∃ u ls, w = u :: ls ∧ U.IsUpper u = true ∧ ∀ l ∈ ls, U.IsLower l = true

/-- The first letters of the words, in order. -/
def firstLetters (ws : List (List Nat)) : List Nat := ws.filterMap List.head?

/-! ## Lemmas on bytes and on the Unicode excerpt -/

theorem encodeRune_length_pos (r : Nat) : 1 ≤ (encodeRune r).length := by
  unfold encodeRune
  split_ifs <;> simp

/-- A text has at least as many bytes as runes. -/
theorem utf8Bytes_length_ge (text : List Nat) : text.length ≤ (utf8Bytes text).length := by
  induction text with
  | nil => simp [utf8Bytes]
  | cons r rs ih =>
    have h := encodeRune_length_pos r
    simp only [utf8Bytes, List.length_cons, List.length_append]
    omega

/-- The excerpt of Go's tables has the disjointness properties of `Sane`. -/
theorem goUnicode_sane : goUnicode.Sane := by
  constructor
  · intro r h
    simp only [goUnicode, inRanges, List.any_cons, List.any_nil, Bool.or_false, Bool.or_eq_true,
      Bool.and_eq_true, decide_eq_true_eq] at h
    simp only [goUnicode, inRanges, List.any_cons, List.any_nil, Bool.or_false,
      Bool.or_eq_false_iff, Bool.and_eq_false_iff, decide_eq_false_iff_not]
    omega
  · intro r h
    simp only [goUnicode, inRanges, List.any_cons, List.any_nil, Bool.or_false, Bool.or_eq_true,
      Bool.and_eq_true, decide_eq_true_eq] at h
    simp only [goUnicode, inRanges, List.any_cons, List.any_nil, Bool.or_false,
      Bool.or_eq_false_iff, Bool.and_eq_false_iff, decide_eq_false_iff_not]
    omega
  · intro r h
    simp only [goUnicode, inRanges, List.any_cons, List.any_nil, Bool.or_false, Bool.or_eq_true,
      Bool.and_eq_true, decide_eq_true_eq] at h
    simp only [goUnicode, inRanges, List.any_cons, List.any_nil, Bool.or_false,
      Bool.or_eq_false_iff, Bool.and_eq_false_iff, decide_eq_false_iff_not]
    omega
  · decide
  · decide

theorem isSymbol_of_upper {U : UnicodeTables} (hU : U.Sane) {r : Nat}
    (h : U.IsUpper r = true) : isSymbol U r = false := by
  obtain ⟨h1, h2, h3⟩ := hU.upper_not_skip r h
  simp [isSymbol, h1, h2, h3]

theorem isSymbol_of_lower {U : UnicodeTables} (hU : U.Sane) {r : Nat}
    (h : U.IsLower r = true) : isSymbol U r = false := by
  obtain ⟨h1, h2, h3⟩ := hU.lower_not_skip r h
  simp [isSymbol, h1, h2, h3]

theorem ne_at_of_not_skip {U : UnicodeTables} (hU : U.Sane) {r : Nat}
    (h : isSymbol U r = false) : (r == 0x40) = false := by
  rw [beq_eq_false_iff_ne]
  rintro rfl
  simp [isSymbol, hU.at_isPunct] at h

theorem isSymbol_space {U : UnicodeTables} (hU : U.Sane) : isSymbol U 0x20 = true := by
  simp [isSymbol, hU.space_isSpace]

/-! ## The matcher decides the denotation of an expression -/

namespace Regex

theorem not_matches_fail (s : List Nat) : ¬ Matches fail s := by
  intro h; cases h

theorem matches_empty_iff (s : List Nat) : Matches empty s ↔ s = [] := by
  constructor
  · intro h; cases h; rfl
  · rintro rfl; exact Matches.empty

theorem matches_cat_iff (a b : Regex) (s : List Nat) :
    Matches (cat a b) s ↔ ∃ s1 s2, s = s1 ++ s2 ∧ Matches a s1 ∧ Matches b s2 := by
  constructor
  · intro h; cases h with
    | cat h1 h2 => exact ⟨_, _, rfl, h1, h2⟩
  · rintro ⟨s1, s2, rfl, h1, h2⟩; exact Matches.cat h1 h2

theorem matches_alt_iff (a b : Regex) (s : List Nat) :
    Matches (alt a b) s ↔ Matches a s ∨ Matches b s := by
  constructor
  · intro h; cases h with
    | altLeft h => exact Or.inl h
    | altRight h => exact Or.inr h
  · rintro (h | h)
    · exact Matches.altLeft h
    · exact Matches.altRight h

theorem matches_mkCat (a b : Regex) (s : List Nat) :
    Matches (mkCat a b) s ↔ Matches (cat a b) s := by
  cases a <;> simp only [mkCat]
  · constructor
    · intro h; exact absurd h (not_matches_fail s)
    · intro h
      obtain ⟨s1, s2, _, h1, _⟩ := (matches_cat_iff _ _ _).mp h
      exact absurd h1 (not_matches_fail s1)
  · constructor
    · intro h
      have := Matches.cat Matches.empty h
      simpa using this
    · intro h
      obtain ⟨s1, s2, rfl, h1, h2⟩ := (matches_cat_iff _ _ _).mp h
      rw [(matches_empty_iff s1).mp h1]
      simpa using h2

theorem matches_mkAlt (a b : Regex) (s : List Nat) :
    Matches (mkAlt a b) s ↔ Matches (alt a b) s := by
  rw [matches_alt_iff]
  cases a <;> cases b <;> simp only [mkAlt, matches_alt_iff] <;>
    simp [not_matches_fail]

theorem nullable_iff (r : Regex) : r.nullable = true ↔ Matches r [] := by
  induction r with
  | fail => simp [nullable, not_matches_fail]
  | empty => simp [nullable, matches_empty_iff]
  | cls rs =>
    simp only [nullable, Bool.false_eq_true, false_iff]
    intro h; cases h
  | cat a b iha ihb =>
    simp only [nullable, Bool.and_eq_true, iha, ihb, matches_cat_iff]
    constructor
    · rintro ⟨h1, h2⟩; exact ⟨[], [], rfl, h1, h2⟩
    · rintro ⟨s1, s2, h, h1, h2⟩
      have h0 := List.append_eq_nil.mp h.symm
      rw [h0.1] at h1; rw [h0.2] at h2
      exact ⟨h1, h2⟩
  | alt a b iha ihb => simp [nullable, iha, ihb, matches_alt_iff]
  | star a _ => simp [nullable, Matches.starNil]

/-- A non-empty text of a star starts with a non-empty text of its body. -/
theorem matches_star_cons {a : Regex} {c : Nat} {s : List Nat}
    (h : Matches (star a) (c :: s)) :
    ∃ s1 s2, s = s1 ++ s2 ∧ Matches a (c :: s1) ∧ Matches (star a) s2 := by
  generalize hr : star a = r at h
  generalize hx : c :: s = x at h
  induction h generalizing s with
  | empty => cases hr
  | cls _ => cases hr
  | cat _ _ => cases hr
  | altLeft _ => cases hr
  | altRight _ => cases hr
  | starNil => cases hx
  | @starCons a2 u t h1 h2 _ ih2 =>
    cases hr
    cases u with
    | nil =>
      simp only [List.nil_append] at hx
      exact ih2 rfl hx
    | cons d u =>
      simp only [List.cons_append, List.cons.injEq] at hx
      obtain ⟨rfl, rfl⟩ := hx
      exact ⟨u, t, rfl, h1, h2⟩

theorem deriv_iff (c : Nat) (r : Regex) : ∀ s, Matches (r.deriv c) s ↔ Matches r (c :: s) := by
  induction r with
  | fail =>
    intro s
    simp only [deriv]
    exact ⟨fun h => absurd h (not_matches_fail _), fun h => absurd h (not_matches_fail _)⟩
  | empty =>
    intro s
    simp only [deriv]
    constructor
    · intro h; exact absurd h (not_matches_fail _)
    · intro h; cases h
  | cls rs =>
    intro s
    simp only [deriv]
    split_ifs with hc
    · rw [matches_empty_iff]
      constructor
      · rintro rfl; exact Matches.cls hc
      · intro h; cases h; rfl
    · constructor
      · intro h; exact absurd h (not_matches_fail _)
      · intro h; cases h with
        | cls h => exact absurd h hc
  | cat a b iha ihb =>
    intro s
    have key : Matches (cat a b) (c :: s) ↔
        (∃ s1 s2, s = s1 ++ s2 ∧ Matches a (c :: s1) ∧ Matches b s2) ∨
          (Matches a [] ∧ Matches b (c :: s)) := by
      rw [matches_cat_iff]
      constructor
      · rintro ⟨s1, s2, h, h1, h2⟩
        cases s1 with
        | nil =>
          simp only [List.nil_append] at h
          subst h
          exact Or.inr ⟨h1, h2⟩
        | cons d s1 =>
          simp only [List.cons_append, List.cons.injEq] at h
          obtain ⟨rfl, rfl⟩ := h
          exact Or.inl ⟨s1, s2, rfl, h1, h2⟩
      · rintro (⟨s1, s2, rfl, h1, h2⟩ | ⟨h1, h2⟩)
        · exact ⟨c :: s1, s2, rfl, h1, h2⟩
        · exact ⟨[], c :: s, rfl, h1, h2⟩
    have hcat : Matches (mkCat (a.deriv c) b) s ↔
        ∃ s1 s2, s = s1 ++ s2 ∧ Matches a (c :: s1) ∧ Matches b s2 := by
      rw [matches_mkCat, matches_cat_iff]
      constructor
      · rintro ⟨s1, s2, h, h1, h2⟩; exact ⟨s1, s2, h, (iha s1).mp h1, h2⟩
      · rintro ⟨s1, s2, h, h1, h2⟩; exact ⟨s1, s2, h, (iha s1).mpr h1, h2⟩
    simp only [deriv]
    split_ifs with hn
    · rw [matches_mkAlt, matches_alt_iff, hcat, ihb, key]
      have hnil := (nullable_iff a).mp hn
      exact ⟨fun h => h.imp id fun h => ⟨hnil, h⟩, fun h => h.imp id fun h => h.2⟩
    · rw [hcat, key]
      have hnil : ¬ Matches a [] := fun h => hn ((nullable_iff a).mpr h)
      exact ⟨Or.inl, fun h => h.elim id fun h => absurd h.1 hnil⟩
  | alt a b iha ihb =>
    intro s
    simp only [deriv]
    rw [matches_mkAlt, matches_alt_iff, matches_alt_iff, iha, ihb]
  | star a iha =>
    intro s
    simp only [deriv]
    rw [matches_mkCat, matches_cat_iff]
    constructor
    · rintro ⟨s1, s2, rfl, h1, h2⟩
      exact Matches.starCons ((iha s1).mp h1) h2
    · intro h
      obtain ⟨s1, s2, hs, h1, h2⟩ := matches_star_cons h
      exact ⟨s1, s2, hs, (iha s1).mpr h1, h2⟩

/-- The matcher decides the denotation: `MatchString r text` holds exactly
when the whole text is one of the texts of `r`. -/
theorem MatchString_iff (r : Regex) (text : List Nat) :
    r.MatchString text = true ↔ Matches r text := by
  induction text generalizing r with
  | nil => simpa [MatchString] using nullable_iff r
  | cons c cs ih => rw [MatchString, ih, deriv_iff]

end Regex

/-! ## The padding loop -/

/-- The padding loop never indexes out of range and ends within
`len([]rune(text)) - i` iterations. -/
theorem padLoop_isSome (U : UnicodeTables) (text : List Nat) (nChars : Int) :
    ∀ (fuel i : Nat) (initials : List Nat), text.length ≤ i + fuel →
      ∃ r, padLoop U text nChars fuel i initials = some r := by
  intro fuel
  induction fuel with
  | zero =>
    intro i initials h
    have hi : ¬ text.length > i := by omega
    simp [padLoop, hi]
  | succ fuel ih =>
    intro i initials h
    rw [padLoop]
    split_ifs with hc
    · simp only [Bool.and_eq_true, decide_eq_true_eq] at hc
      have hi : i < text.length := hc.2
      have hb : i < (utf8Bytes text).length := lt_of_lt_of_le hi (utf8Bytes_length_ge text)
      rw [List.getElem?_eq_getElem hb, List.getElem?_eq_getElem hi]
      simp only
      split_ifs
      · exact ih (i + 1) initials (by omega)
      · exact ih (i + 1) _ (by omega)
    · exact ⟨initials, rfl⟩

/-- Padding started at an index `i ≥ len(initials)` ends with at most
`max(nChars, len(initials))` characters. -/
theorem padLoop_length (U : UnicodeTables) (text : List Nat) (nChars : Int) :
    ∀ (fuel i : Nat) (initials r : List Nat), initials.length ≤ i →
      padLoop U text nChars fuel i initials = some r →
      (r.length : Int) ≤ max nChars (initials.length : Int) := by
  intro fuel
  induction fuel with
  | zero =>
    intro i initials r _ h
    rw [padLoop] at h
    split_ifs at h
    simp only [Option.some.injEq] at h
    subst h
    exact le_max_right _ _
  | succ fuel ih =>
    intro i initials r hle h
    rw [padLoop] at h
    split_ifs at h with hc
    · simp only [Bool.and_eq_true, decide_eq_true_eq] at hc
      have hi : i < text.length := hc.2
      have hb : i < (utf8Bytes text).length := lt_of_lt_of_le hi (utf8Bytes_length_ge text)
      rw [List.getElem?_eq_getElem hb, List.getElem?_eq_getElem hi] at h
      simp only at h
      split_ifs at h
      · exact ih (i + 1) initials r (by omega) h
      · have := ih (i + 1) _ r (by simp; omega) h
        simp only [List.length_append, List.length_singleton, Nat.cast_add, Nat.cast_one] at this
        have h1 := hc.1
        have h2 : (initials.length : Int) ≤ i := by exact_mod_cast hle
        omega
    · simp only [Option.some.injEq] at h
      subst h
      exact le_max_right _ _

/-! ## The boundary loop on capitalised words -/

/-- Lower-case letters after a selected upper-case letter are passed over. -/
theorem scanLoop_lowers {U : UnicodeTables} (hU : U.Sane) (sk : Bool) (u : Nat)
    (hu : U.IsUpper u = true) :
    ∀ (ls rest initials : List Nat), (∀ l ∈ ls, U.IsLower l = true) → initials ≠ [] →
      scanLoop U sk (ls ++ rest) initials u = scanLoop U sk rest initials u := by
  intro ls
  induction ls with
  | nil => intro rest initials _ _; rfl
  | cons l ls ih =>
    intro rest initials hl hne
    have hll : U.IsLower l = true := hl l (List.mem_cons_self _ _)
    have hsym := isSymbol_of_lower hU hll
    have hat := ne_at_of_not_skip hU hsym
    have hup : U.IsUpper l = false := by
      cases h : U.IsUpper l
      · rfl
      · have := hU.upper_not_lower l h
        rw [hll] at this
        exact absurd this (by decide)
    have hlen : (initials.length == 0) = false := by
      cases initials with
      | nil => exact absurd rfl hne
      | cons a as => rfl
    have hprev := isSymbol_of_upper hU hu
    simp only [List.cons_append, scanLoop, hat, hsym, hup, hlen, hprev, Bool.and_false,
      Bool.false_and, Bool.or_false, Bool.false_eq_true, if_false]
    exact ih rest initials (fun x hx => hl x (List.mem_cons_of_mem _ hx)) hne

/-- A capitalised word read after a skip character contributes its first letter. -/
theorem scanLoop_word {U : UnicodeTables} (hU : U.Sane) (sk : Bool) (w : List Nat)
    (hw : IsCapitalised U w) (rest initials : List Nat) (prev : Nat)
    (hprev : isSymbol U prev = true) :
    ∃ u, w.head? = some u ∧ U.IsUpper u = true ∧
      scanLoop U sk (w ++ rest) initials prev = scanLoop U sk rest (initials ++ [u]) u := by
  obtain ⟨u, ls, rfl, hu, hls⟩ := hw
  refine ⟨u, rfl, hu, ?_⟩
  have hsym := isSymbol_of_upper hU hu
  have hat := ne_at_of_not_skip hU hsym
  simp only [List.cons_append, scanLoop, hat, hsym, hprev, Bool.and_false, Bool.or_true,
    Bool.false_eq_true, if_false, if_true]
  exact scanLoop_lowers hU sk u hu ls rest _ hls (by simp)

/-- The boundary loop on capitalised words joined by spaces selects the first
letter of every word. -/
theorem scanLoop_joinWords {U : UnicodeTables} (hU : U.Sane) (sk : Bool) :
    ∀ (ws : List (List Nat)) (initials : List Nat) (prev : Nat),
      (∀ w ∈ ws, IsCapitalised U w) → isSymbol U prev = true →
      scanLoop U sk (joinWords ws) initials prev = initials ++ firstLetters ws := by
  intro ws
  induction ws with
  | nil => intro initials prev _ _; simp [joinWords, scanLoop, firstLetters]
  | cons w ws ih =>
    intro initials prev hw hprev
    cases ws with
    | nil =>
      obtain ⟨u, hhead, _, hstep⟩ :=
        scanLoop_word hU sk w (hw w (List.mem_cons_self _ _)) [] initials prev hprev
      simp only [List.append_nil] at hstep
      simp [joinWords, hstep, scanLoop, firstLetters, hhead]
    | cons w2 ws =>
      obtain ⟨u, hhead, _, hstep⟩ :=
        scanLoop_word hU sk w (hw w (List.mem_cons_self _ _)) (0x20 :: joinWords (w2 :: ws))
          initials prev hprev
      have hsp := isSymbol_space hU
      have hne : ((0x20 : Nat) == 0x40) = false := by decide
      rw [joinWords, hstep, scanLoop]
      simp only [hne, hsp, Bool.and_false, Bool.false_eq_true, if_false, if_true]
      rw [ih _ _ (fun x hx => hw x (List.mem_cons_of_mem _ hx)) hsp]
      simp [firstLetters, hhead]

theorem firstLetters_length {U : UnicodeTables} (ws : List (List Nat))
    (hw : ∀ w ∈ ws, IsCapitalised U w) : (firstLetters ws).length = ws.length := by
  induction ws with
  | nil => rfl
  | cons w ws ih =>
    obtain ⟨u, ls, rfl, _, _⟩ := hw w (List.mem_cons_self _ _)
    simp [firstLetters] at ih ⊢
    exact ih (fun x hx => hw x (List.mem_cons_of_mem _ hx))

theorem joinWords_ne_nil {U : UnicodeTables} (ws : List (List Nat)) (hne : ws ≠ [])
    (hw : ∀ w ∈ ws, IsCapitalised U w) : joinWords ws ≠ [] := by
  cases ws with
  | nil => exact absurd rfl hne
  | cons w ws =>
    obtain ⟨u, ls, rfl, _, _⟩ := hw w (List.mem_cons_self _ _)
    cases ws <;> simp [joinWords]

/-! ## Lemmas on the interpolation loop -/

theorem one_lt_overflowBound : (1 : ℚ) < overflowBound := by
  unfold overflowBound
  norm_num

theorem ofRat_of_unit {q : ℚ} (h0 : 0 ≤ q) (h1 : q ≤ 1) : F64.ofRat q = F64.num q := by
  unfold F64.ofRat
  rw [if_pos]
  rw [abs_of_nonneg h0]
  exact lt_of_le_of_lt h1 one_lt_overflowBound

/-- Within a bracketing pair of distinct positions of `[0, 1]` the local
fraction is a finite number of `[0, 1]`. -/
theorem fraction_of_bracket {t p1 p2 : ℚ} (h0 : 0 ≤ p1) (h1 : p2 ≤ 1) (hlt : p1 < p2)
    (ht1 : p1 ≤ t) (ht2 : t ≤ p2) :
    fdiv (fsub t p1) (fsub p2 p1) = F64.num ((t - p1) / (p2 - p1)) ∧
      0 ≤ (t - p1) / (p2 - p1) ∧ (t - p1) / (p2 - p1) ≤ 1 := by
  have hd : 0 < p2 - p1 := by linarith
  have hq0 : 0 ≤ (t - p1) / (p2 - p1) := div_nonneg (by linarith) (le_of_lt hd)
  have hq1 : (t - p1) / (p2 - p1) ≤ 1 := (div_le_one hd).mpr (by linarith)
  refine ⟨?_, hq0, hq1⟩
  unfold fsub
  rw [ofRat_of_unit (by linarith) (by linarith), ofRat_of_unit (by linarith) (by linarith)]
  simp only [fdiv]
  rw [if_neg (ne_of_gt hd), ofRat_of_unit hq0 hq1]

theorem fsub_self (a : ℚ) : fsub a a = F64.num 0 := by
  unfold fsub
  rw [sub_self]
  exact ofRat_of_unit le_rfl zero_le_one

theorem fdiv_zero_zero : fdiv (F64.num 0) (F64.num 0) = F64.nan := by
  simp [fdiv]

/-- When the first pair of the table brackets `t`, the result is the clamped
blend of that pair at the local fraction. -/
theorem getInterpolatedColorFor_first_pair (L : ColorLib) (c1 c2 : Stop)
    (rest : GradientTable) (t : ℚ) (h : c1.Pos ≤ t ∧ t ≤ c2.Pos) :
    getInterpolatedColorFor L (c1 :: c2 :: rest) t =
      some (L.Clamped
        (L.BlendHcl c1.Col c2.Col (fdiv (fsub t c1.Pos) (fsub c2.Pos c1.Pos)))) := by
  simp [getInterpolatedColorFor, interpolateFrom, h]

/-- On a non-empty table with strictly increasing positions in `[0, 1]` the
loop returns the clamped blend of two stops at a finite fraction of `[0, 1]`,
or falls through to the last stop's colour. -/
theorem interpolateFrom_cases (L : ColorLib) (gt : GradientTable) (t : ℚ)
    (hsorted : StrictlySorted gt) (hpos : UnitPositions gt) :
    ∀ (k i : Nat), i + k = gt.length - 1 → 0 < gt.length →
      (∃ a b q, a ∈ gt ∧ b ∈ gt ∧ 0 ≤ q ∧ q ≤ 1 ∧
          interpolateFrom L gt t k i =
            some (L.Clamped (L.BlendHcl a.Col b.Col (F64.num q)))) ∨
        interpolateFrom L gt t k i = (gt[gt.length - 1]?).map Stop.Col := by
  intro k
  induction k with
  | zero => intro i _ _; right; rfl
  | succ k ih =>
    intro i hik hlen
    have h1 : i < gt.length := by omega
    have h2 : i + 1 < gt.length := by omega
    rw [interpolateFrom, List.getElem?_eq_getElem h1, List.getElem?_eq_getElem h2]
    simp only
    split_ifs with hb
    · have hlt : gt[i].Pos < gt[i + 1].Pos :=
        List.pairwise_iff_getElem.mp hsorted i (i + 1) h1 h2 (by omega)
      obtain ⟨hq, hq0, hq1⟩ := fraction_of_bracket (hpos _ (List.getElem_mem h1)).1
        (hpos _ (List.getElem_mem h2)).2 hlt hb.1 hb.2
      rw [hq]
      exact Or.inl ⟨gt[i], gt[i + 1], _, List.getElem_mem h1, List.getElem_mem h2, hq0, hq1, rfl⟩
    · exact ih (i + 1) (by omega) hlen

/-- When `t` is below every position no pair brackets it, and the loop falls
through to the last stop. -/
theorem interpolateFrom_below (L : ColorLib) (gt : GradientTable) (t : ℚ)
    (hbelow : ∀ s ∈ gt, t < s.Pos) :
    ∀ (k i : Nat), i + k = gt.length - 1 → 0 < gt.length →
      interpolateFrom L gt t k i = (gt[gt.length - 1]?).map Stop.Col := by
  intro k
  induction k with
  | zero => intro i _ _; rfl
  | succ k ih =>
    intro i hik hpos
    have h1 : i < gt.length := by omega
    have h2 : i + 1 < gt.length := by omega
    rw [interpolateFrom, List.getElem?_eq_getElem h1, List.getElem?_eq_getElem h2]
    simp only
    have := hbelow gt[i] (List.getElem_mem _)
    rw [if_neg (by intro h; exact absurd h.1 (not_le.mpr this))]
    exact ih (i + 1) (by omega) hpos

/-- With strictly increasing positions in `[0, 1]`, the loop started before
stop `i ≥ 1` reaches the pair that ends at stop `i` and blends it with the stop
before at fraction 1. -/
theorem interpolateFrom_at_stop (L : ColorLib) (gt : GradientTable) (i : Nat) (p s : Stop)
    (hsorted : StrictlySorted gt) (hpos : UnitPositions gt)
    (hp : gt[i]? = some p) (hi : gt[i + 1]? = some s) :
    ∀ (k j : Nat), j + k = gt.length - 1 → j ≤ i →
      interpolateFrom L gt s.Pos k j =
        some (L.Clamped (L.BlendHcl p.Col s.Col (F64.num 1))) := by
  have hilt : i + 1 < gt.length := by
    by_contra h
    rw [List.getElem?_eq_none (by omega)] at hi
    exact absurd hi (by simp)
  have his : gt[i + 1] = s := by
    rw [List.getElem?_eq_getElem hilt] at hi
    exact Option.some.inj hi
  have hip : gt[i] = p := by
    rw [List.getElem?_eq_getElem (by omega)] at hp
    exact Option.some.inj hp
  intro k
  induction k with
  | zero => intro j hj hji; omega
  | succ k ih =>
    intro j hj hji
    have h1 : j < gt.length := by omega
    have h2 : j + 1 < gt.length := by omega
    rw [interpolateFrom, List.getElem?_eq_getElem h1, List.getElem?_eq_getElem h2]
    simp only
    rcases Nat.lt_or_ge j i with hlt | hge
    · have hlt2 : gt[j + 1].Pos < s.Pos := by
        have := List.pairwise_iff_getElem.mp hsorted (j + 1) (i + 1) h2 hilt (by omega)
        rwa [his] at this
      rw [if_neg (by intro h; exact absurd h.2 (not_le.mpr hlt2))]
      exact ih (j + 1) (by omega) (by omega)
    · have hji2 : j = i := by omega
      subst hji2
      have hlt1 : p.Pos < s.Pos := by
        have := List.pairwise_iff_getElem.mp hsorted j (j + 1) h1 hilt (by omega)
        rwa [his, hip] at this
      have hpp := hpos p (List.getElem?_mem hp)
      have hps := hpos s (List.getElem?_mem hi)
      obtain ⟨hq, _, _⟩ := fraction_of_bracket hpp.1 hps.2 hlt1 (le_of_lt hlt1) (le_refl s.Pos)
      rw [his, hip, if_pos ⟨le_of_lt hlt1, le_refl _⟩, hq, div_self (by linarith)]

/-- The clamping of the sample library brings every colour without a NaN
channel into the gamut. -/
theorem sampleLib_clamped_inGamut (c : Color) (h : c.NoNaN) : (sampleLib.Clamped c).InGamut := by
  have key : ∀ v : F64, v ≠ F64.nan → (clamp01 v).InUnit := by
    intro v hv
    cases v with
    | num q => exact ⟨le_max_left _ _, max_le (by norm_num) (min_le_right _ _)⟩
    | nan => exact absurd rfl hv
    | inf n => cases n <;> simp [clamp01, F64.InUnit]
  exact ⟨key _ h.1, key _ h.2.1, key _ h.2.2⟩

/-- The blend of the sample library of two colours with finite channels, at a
finite fraction, has no NaN channel. -/
theorem sampleLib_blend_noNaN (r1 g1 b1 r2 g2 b2 q : ℚ) :
    (sampleLib.BlendHcl (rgb r1 g1 b1) (rgb r2 g2 b2) (F64.num q)).NoNaN := by
  simp [sampleLib, rgb, mixChannel, Color.NoNaN]

/-! ## Properties of getInitials -/

/-- C1, as stated, fails: `getInitials("John Smith", 1)` is `"JS"`, two
characters for `nChars = 1`. The boundary loop selects `J` and `S` and nothing
cuts the selection down to `nChars`. -/
theorem getInitials_exceeds_nChars :
    getInitials goUnicode (runes "John Smith") 1 = some (runes "JS") ∧
      ¬ ((runes "JS").length : Int) ≤ 1 := by
  decide

/-- C1, amended: for every text and every `nChars`, `getInitials` returns a
string of at most `max(nChars, b)` characters, where `b` is the number of
characters selected by the boundary rules; padding never takes the result
beyond `nChars`. -/
theorem getInitials_length_le (U : UnicodeTables) (text : List Nat) (nChars : Int) :
    ∃ r, getInitials U text nChars = some r ∧
      (r.length : Int) ≤ max nChars ((boundaryInitials U text).length : Int) := by
  unfold getInitials
  split_ifs
  · exact ⟨[], rfl, le_max_of_le_right (by simp)⟩
  · obtain ⟨r, hr⟩ := padLoop_isSome U text nChars text.length
      (boundaryInitials U text).length (boundaryInitials U text) (by omega)
    exact ⟨r, hr, padLoop_length U text nChars _ _ _ r (le_refl _) hr⟩

/-- C2, evaluated on the text of the gradient test: `"РЩ"` is not an email
address, has no skip character and is made of upper-case letters only, and
`getInitials("РЩ", 2)` is `"Р"`, not `"РЩ"`: the padding loop tests byte 1 of
the text, `0xA0`, which as a rune is the no-break space. -/
theorem getInitials_cyrillic_pair :
    regEmail.MatchString (runes "РЩ") = false ∧
      (∀ r ∈ runes "РЩ", goUnicode.IsUpper r = true ∧ isSymbol goUnicode r = false) ∧
      (utf8Bytes (runes "РЩ"))[1]? = some 0xA0 ∧ isSymbol goUnicode 0xA0 = true ∧
      getInitials goUnicode (runes "РЩ") 2 = some (runes "Р") := by
  decide

/-- C3, evaluated on an email address: `"a@example.com"` matches `regEmail`,
its local part is `"a"`, and `getInitials("a@example.com", 3)` is `"ae"`, whose
`e` comes from the domain, while `getInitials("a", 3)` is `"a"`. -/
theorem getInitials_email_pads_from_domain :
    regEmail.MatchString (runes "a@example.com") = true ∧
      getInitials goUnicode (runes "a@example.com") 3 = some (runes "ae") ∧
      getInitials goUnicode (runes "a") 3 = some (runes "a") := by
  decide

/-- C4, evaluated on a text with a two-byte letter: `getInitials("Ål Bo", 3)`
is `"ÅB "`, which ends with a space, a skip character: padding at index 2
tests byte 2 of the text, `l`, and appends rune 2, the space. -/
theorem getInitials_pads_skip_character :
    getInitials goUnicode (runes "Ål Bo") 3 = some (runes "ÅB ") ∧
      isSymbol goUnicode 0x20 = true ∧
      (utf8Bytes (runes "Ål Bo"))[2]? = some 0x6C ∧ (runes "Ål Bo")[2]? = some 0x20 := by
  decide

/-- C5: for every non-empty list of words, each one upper-case letter followed
by zero or more lower-case letters, `getInitials` of the words joined by single
spaces, asked for as many characters as there are words, is the string of the
first letters of the words in order. -/
theorem getInitials_capitalised_words (U : UnicodeTables) (hU : U.Sane)
    (ws : List (List Nat)) (hne : ws ≠ []) (hw : ∀ w ∈ ws, IsCapitalised U w) :
    getInitials U (joinWords ws) (ws.length : Int) = some (firstLetters ws) := by
  have htext := joinWords_ne_nil ws hne hw
  have hbytes : ((utf8Bytes (joinWords ws)).length == 0) = false := by
    have := utf8Bytes_length_ge (joinWords ws)
    have : 0 < (joinWords ws).length := List.length_pos.mpr htext
    rw [beq_eq_false_iff_ne]
    omega
  have hscan : boundaryInitials U (joinWords ws) = firstLetters ws := by
    unfold boundaryInitials
    rw [scanLoop_joinWords hU _ ws [] 0x20 hw (isSymbol_space hU)]
    rfl
  unfold getInitials
  simp only [hbytes, Bool.false_eq_true, if_false, hscan, firstLetters_length ws hw]
  cases h : (joinWords ws).length <;> simp [padLoop]

/-- C5 at `"John Smith"` with 2 initials: the result is `"JS"`. -/
theorem getInitials_capitalised_words_witness :
    joinWords [runes "John", runes "Smith"] = runes "John Smith" ∧
      getInitials goUnicode (joinWords [runes "John", runes "Smith"]) 2 = some (runes "JS") :=
  ⟨by decide,
    getInitials_capitalised_words goUnicode goUnicode_sane [runes "John", runes "Smith"]
      (by simp)
      (by
        intro w hw
        simp only [List.mem_cons, List.mem_singleton, List.not_mem_nil, or_false] at hw
        rcases hw with rfl | rfl
        · exact ⟨0x4A, runes "ohn", by decide, by decide, by decide⟩
        · exact ⟨0x53, runes "mith", by decide, by decide, by decide⟩)⟩

/-- C6, evaluated: on `"McDonald"` the boundary rules select `M` only, since
`previous` is still `M` when `D` is read, and `getInitials("McDonald", 3)` is
`"McD"`, which does not start with `"MD"`. -/
theorem getInitials_McDonald :
    boundaryInitials goUnicode (runes "McDonald") = runes "M" ∧
      getInitials goUnicode (runes "McDonald") 3 = some (runes "McD") := by
  decide

/-- C10: for every text and every integer `nChars`, zero and negative
included, `getInitials` returns a string: neither `text[i]` nor
`[]rune(text)[i]` is evaluated out of range, and the padding loop ends. -/
theorem getInitials_total (U : UnicodeTables) (text : List Nat) (nChars : Int) :
    ∃ r, getInitials U text nChars = some r := by
  unfold getInitials
  split_ifs
  · exact ⟨[], rfl⟩
  · exact padLoop_isSome U text nChars text.length _ _ (by omega)

/-! ## Properties of getInterpolatedColorFor -/

/-- C7, evaluated below the first position: on the table with stops at 1/4
(red) and 3/4 (blue), `getInterpolatedColorFor(0)` is the last stop's colour,
blue, not the first stop's. -/
theorem getInterpolatedColorFor_below_first (L : ColorLib) :
    getInterpolatedColorFor L [⟨rgb 1 0 0, 1 / 4⟩, ⟨rgb 0 0 1, 3 / 4⟩] 0 =
      some (rgb 0 0 1) := by
  simp [getInterpolatedColorFor, interpolateFrom]

/-- For every non-empty table, `getInterpolatedColorFor(t)` with `t` below
every position is the last stop's colour. -/
theorem getInterpolatedColorFor_below (L : ColorLib) (gt : GradientTable) (t : ℚ)
    (last : Stop) (hlast : gt.getLast? = some last) (hbelow : ∀ s ∈ gt, t < s.Pos) :
    getInterpolatedColorFor L gt t = some last.Col := by
  have hne : gt ≠ [] := by rintro rfl; simp at hlast
  have hpos : 0 < gt.length := List.length_pos.mpr hne
  unfold getInterpolatedColorFor
  rw [if_neg (by omega), interpolateFrom_below L gt t hbelow _ 0 (by omega) hpos,
    ← List.getLast?_eq_getElem?, hlast]
  rfl

/-- C8, as stated, fails, whatever the library: a table whose only stop holds
the colour `(2, 0, 0)` returns that colour as it is, and its red channel is
above 1. Besides, on a table whose two stops share the position 1/2 the
fraction at `t = 1/2` is `0/0`, a NaN, and the colour returned is what the
library makes of a NaN fraction. -/
theorem getInterpolatedColorFor_out_of_gamut :
    (∀ L : ColorLib, getInterpolatedColorFor L [⟨rgb 2 0 0, 0⟩] 0 = some (rgb 2 0 0)) ∧
      ¬ (rgb 2 0 0).InGamut ∧
      (∀ L : ColorLib,
        getInterpolatedColorFor L [⟨rgb 1 0 0, 1 / 2⟩, ⟨rgb 0 0 1, 1 / 2⟩] (1 / 2) =
          some (L.Clamped (L.BlendHcl (rgb 1 0 0) (rgb 0 0 1) F64.nan))) := by
  refine ⟨?_, ?_, ?_⟩
  · intro L
    simp [getInterpolatedColorFor, interpolateFrom]
  · simp [Color.InGamut, rgb, F64.InUnit]
  · intro L
    rw [getInterpolatedColorFor_first_pair L ⟨rgb 1 0 0, 1 / 2⟩ ⟨rgb 0 0 1, 1 / 2⟩ [] (1 / 2)
      ⟨le_refl _, le_refl _⟩]
    dsimp only
    rw [fsub_self, fdiv_zero_zero]

/-- C8, amended: for every non-empty table with strictly increasing positions
in `[0, 1]` whose last stop's colour is within the gamut, and every `t`, the
colour returned by `getInterpolatedColorFor(t)` is within the gamut, provided
the library's blend of two stop colours at a finite fraction of `[0, 1]` has
no NaN channel and `Clamped` brings every colour without a NaN channel into
the gamut. -/
theorem getInterpolatedColorFor_inGamut (L : ColorLib) (gt : GradientTable) (t : ℚ)
    (last : Stop) (hsorted : StrictlySorted gt) (hpos : UnitPositions gt)
    (hblend : ∀ a ∈ gt, ∀ b ∈ gt, ∀ q : ℚ, 0 ≤ q → q ≤ 1 →
      (L.BlendHcl a.Col b.Col (F64.num q)).NoNaN)
    (hclamp : ∀ c, c.NoNaN → (L.Clamped c).InGamut)
    (hlast : gt.getLast? = some last) (hg : last.Col.InGamut) :
    ∃ c, getInterpolatedColorFor L gt t = some c ∧ c.InGamut := by
  have hne : gt ≠ [] := by rintro rfl; simp at hlast
  have hlen : 0 < gt.length := List.length_pos.mpr hne
  have hl : gt[gt.length - 1]? = some last := by
    rw [← List.getLast?_eq_getElem?]; exact hlast
  unfold getInterpolatedColorFor
  rw [if_neg (by omega)]
  rcases interpolateFrom_cases L gt t hsorted hpos (gt.length - 1) 0 (by omega) hlen with
    ⟨a, b, q, ha, hb, hq0, hq1, hx⟩ | h
  · exact ⟨_, hx, hclamp _ (hblend a ha b hb q hq0 hq1)⟩
  · rw [h, hl]; exact ⟨_, rfl, hg⟩

/-- C8, amended, on the blended branch: the table with stops at 0 (red) and 1
(blue) at `t = 1/2`, where the pair brackets `t` and the result is the clamped
blend. -/
theorem getInterpolatedColorFor_inGamut_witness :
    getInterpolatedColorFor sampleLib [⟨rgb 1 0 0, 0⟩, ⟨rgb 0 0 1, 1⟩] (1 / 2) =
        some (sampleLib.Clamped (sampleLib.BlendHcl (rgb 1 0 0) (rgb 0 0 1) (F64.num (1 / 2)))) ∧
      ∃ c, getInterpolatedColorFor sampleLib [⟨rgb 1 0 0, 0⟩, ⟨rgb 0 0 1, 1⟩] (1 / 2) = some c ∧
        c.InGamut :=
  ⟨by
      have hq : fdiv (fsub (1 / 2) 0) (fsub 1 0) = F64.num (1 / 2) := by
        rw [(@fraction_of_bracket (1 / 2) 0 1 le_rfl le_rfl
          (by norm_num) (by norm_num) (by norm_num)).1]
        norm_num
      rw [getInterpolatedColorFor_first_pair sampleLib _ _ _ _ ⟨by norm_num, by norm_num⟩]
      dsimp only
      rw [hq],
    getInterpolatedColorFor_inGamut sampleLib [⟨rgb 1 0 0, 0⟩, ⟨rgb 0 0 1, 1⟩] (1 / 2)
      ⟨rgb 0 0 1, 1⟩ (by simp [StrictlySorted]) (by simp [UnitPositions])
      (by
        intro a ha b hb q _ _
        simp only [List.mem_cons, List.mem_singleton, List.not_mem_nil, or_false] at ha hb
        rcases ha with rfl | rfl <;> rcases hb with rfl | rfl <;>
          exact sampleLib_blend_noNaN _ _ _ _ _ _ q)
      sampleLib_clamped_inGamut (by simp) (by simp [Color.InGamut, rgb, F64.InUnit])⟩

/-- C9, as stated, fails, whatever the library. The two sorted tables with
stops at 0 (red), 1/2 (green) and 1/2, which differ only in the colour of
stop 2 (blue in one, white in the other), return the same colour at the
position of stop 2, the clamped blend of red and green at fraction 1: the
first bracketing pair is the pair of stops 0 and 1, and the colour of stop 2
is not read. So the result is not stop 2's colour on both tables. -/
theorem getInterpolatedColorFor_duplicate_position :
    Sorted [⟨rgb 1 0 0, 0⟩, ⟨rgb 0 1 0, 1 / 2⟩, ⟨rgb 0 0 1, 1 / 2⟩] ∧
      Sorted [⟨rgb 1 0 0, 0⟩, ⟨rgb 0 1 0, 1 / 2⟩, ⟨rgb 1 1 1, 1 / 2⟩] ∧
      (∀ L : ColorLib,
        getInterpolatedColorFor L
            [⟨rgb 1 0 0, 0⟩, ⟨rgb 0 1 0, 1 / 2⟩, ⟨rgb 0 0 1, 1 / 2⟩] (1 / 2) =
          some (L.Clamped (L.BlendHcl (rgb 1 0 0) (rgb 0 1 0) (F64.num 1))) ∧
        getInterpolatedColorFor L
            [⟨rgb 1 0 0, 0⟩, ⟨rgb 0 1 0, 1 / 2⟩, ⟨rgb 1 1 1, 1 / 2⟩] (1 / 2) =
          some (L.Clamped (L.BlendHcl (rgb 1 0 0) (rgb 0 1 0) (F64.num 1)))) ∧
      (∀ L : ColorLib,
        ¬ (getInterpolatedColorFor L
              [⟨rgb 1 0 0, 0⟩, ⟨rgb 0 1 0, 1 / 2⟩, ⟨rgb 0 0 1, 1 / 2⟩] (1 / 2) =
            some (rgb 0 0 1) ∧
          getInterpolatedColorFor L
              [⟨rgb 1 0 0, 0⟩, ⟨rgb 0 1 0, 1 / 2⟩, ⟨rgb 1 1 1, 1 / 2⟩] (1 / 2) =
            some (rgb 1 1 1))) := by
  have hval : ∀ (L : ColorLib) (c : Color),
      getInterpolatedColorFor L [⟨rgb 1 0 0, 0⟩, ⟨rgb 0 1 0, 1 / 2⟩, ⟨c, 1 / 2⟩] (1 / 2) =
        some (L.Clamped (L.BlendHcl (rgb 1 0 0) (rgb 0 1 0) (F64.num 1))) := by
    intro L c
    have hq : fdiv (fsub (1 / 2) 0) (fsub (1 / 2) 0) = F64.num 1 := by
      rw [(@fraction_of_bracket (1 / 2) 0 (1 / 2) le_rfl (by norm_num)
        (by norm_num) (by norm_num) le_rfl).1]
      norm_num
    rw [getInterpolatedColorFor_first_pair L _ _ _ _ ⟨by norm_num, by norm_num⟩]
    dsimp only
    rw [hq]
  refine ⟨by simp [Sorted], by simp [Sorted], fun L => ⟨hval L _, hval L _⟩, ?_⟩
  rintro L ⟨h1, h2⟩
  rw [hval L] at h1 h2
  have h := h1.symm.trans h2
  simp [rgb] at h

/-- C9, amended: for every table with at least 2 stops and strictly
increasing positions in `[0, 1]`, and every index `i`,
`getInterpolatedColorFor(stop[i].Pos)` returns the library's clamped blend of
the pair at stop `i`, taken at the end point that is stop `i`: for `i = 0` the
blend of stops 0 and 1 at fraction 0, for `i ≥ 1` the blend of stops `i - 1`
and `i` at fraction 1. The colour of stop `i` comes back as the library's
blend and clamp return it at that end point. -/
theorem getInterpolatedColorFor_at_stop (L : ColorLib) (gt : GradientTable) (i : Nat)
    (s : Stop) (hlen : 2 ≤ gt.length) (hsorted : StrictlySorted gt) (hpos : UnitPositions gt)
    (hi : gt[i]? = some s) :
    (i = 0 → ∃ n, gt[1]? = some n ∧
        getInterpolatedColorFor L gt s.Pos =
          some (L.Clamped (L.BlendHcl s.Col n.Col (F64.num 0)))) ∧
      (0 < i → ∃ p, gt[i - 1]? = some p ∧
        getInterpolatedColorFor L gt s.Pos =
          some (L.Clamped (L.BlendHcl p.Col s.Col (F64.num 1)))) := by
  constructor
  · intro h0
    subst h0
    obtain ⟨k, hk⟩ : ∃ k, gt.length - 1 = k + 1 := ⟨gt.length - 2, by omega⟩
    have h1 : 0 < gt.length := by omega
    have h2 : 0 + 1 < gt.length := by omega
    have his : gt[0] = s := by
      rw [List.getElem?_eq_getElem h1] at hi
      exact Option.some.inj hi
    have hlt : s.Pos < gt[0 + 1].Pos := by
      have := List.pairwise_iff_getElem.mp hsorted 0 (0 + 1) h1 h2 (by omega)
      rwa [his] at this
    refine ⟨gt[0 + 1], List.getElem?_eq_getElem h2, ?_⟩
    obtain ⟨hq, _, _⟩ := fraction_of_bracket (hpos s (List.getElem?_mem hi)).1
      (hpos _ (List.getElem_mem h2)).2 hlt (le_refl s.Pos) (le_of_lt hlt)
    unfold getInterpolatedColorFor
    rw [if_neg (by omega), hk, interpolateFrom, List.getElem?_eq_getElem h1,
      List.getElem?_eq_getElem h2]
    simp only
    rw [his, if_pos ⟨le_refl _, le_of_lt hlt⟩, hq, sub_self, zero_div]
  · intro hipos
    obtain ⟨j, rfl⟩ : ∃ j, i = j + 1 := ⟨i - 1, by omega⟩
    have hilt : j + 1 < gt.length := by
      by_contra h
      rw [List.getElem?_eq_none (by omega)] at hi
      exact absurd hi (by simp)
    have hp : gt[j]? = some gt[j] := List.getElem?_eq_getElem (by omega)
    refine ⟨gt[j], by simp, ?_⟩
    unfold getInterpolatedColorFor
    rw [if_neg (by omega)]
    exact interpolateFrom_at_stop L gt j gt[j] s hsorted hpos hp hi (gt.length - 1) 0
      (by omega) (by omega)

/-- C9, amended, at the table with stops at 0 (red) and 1 (blue) and stop 1:
the result is the clamped blend of red and blue at fraction 1. -/
theorem getInterpolatedColorFor_at_stop_witness :
    getInterpolatedColorFor sampleLib [⟨rgb 1 0 0, 0⟩, ⟨rgb 0 0 1, 1⟩] 1 =
      some (sampleLib.Clamped (sampleLib.BlendHcl (rgb 1 0 0) (rgb 0 0 1) (F64.num 1))) := by
  obtain ⟨p, hp, h⟩ := (getInterpolatedColorFor_at_stop sampleLib
    [⟨rgb 1 0 0, 0⟩, ⟨rgb 0 0 1, 1⟩] 1 ⟨rgb 0 0 1, 1⟩ (by simp) (by simp [StrictlySorted])
    (by simp [UnitPositions]) (by simp)).2 (by decide)
  simp only [Nat.sub_self, List.getElem?_cons_zero, Option.some.injEq] at hp
  subst hp
  exact h

end Avatar
